import Mathlib

/-!
Verification of the resilience-and-orchestration layer of the
SSO-linkedin-bot repository: circuit breaker, rate limiter, pipeline
executor and credential encryption, shallowly embedded in Lean 4.

The repository wraps the opossum circuit-breaker and the Bottleneck
rate-limiter libraries (src/src/lib/auth.ts createCircuitBreaker,
src/src/lib/rate-limiter.ts createRateLimiter); the wrapped libraries and
the Pipeline engine (src/lib/workflows/Pipeline.ts, referenced by the
post-to-profile workflow but not present in the available sources) are
modelled from the specification where noted.  Code that is present in the
sources (the failed-event retry handler of the rate limiter, the
encrypt/decrypt functions) is translated directly.
-/

/-! ## Circuit breaker

Modelled from the spec: the opossum CircuitBreaker library used by
createCircuitBreaker (src/src/lib/auth.ts lines 78-142) is not part of the
repository sources; its call semantics are taken from the specification
(sections 3 and 4.1).  Time is an explicit natural-number parameter
(milliseconds); all modelled calls fall inside one rolling statistics
window.  A call is split into an admission decision (fire) and the
settlement of an admitted call (settle); the invocations counter counts
admissions, i.e. actual invocations of the wrapped operation. -/

/-- Configuration of createCircuitBreaker, field names and meaning from
src/src/lib/auth.ts lines 66-72. -/
structure CBConfig where
  timeout : Nat
  errorThresholdPercentage : Nat
  resetTimeout : Nat
  volumeThreshold : Nat
  deriving Repr, DecidableEq

/-- The three breaker states (spec section 3). -/
inductive BState where
  | Closed
  | Open
  | HalfOpen
  deriving Repr, DecidableEq

/-- Modelled from the spec: breaker runtime state.  successes/failures are
the rolling-window statistics, openedAt the time the circuit last opened,
probing whether a half-open probe is in flight, invocations the number of
times the wrapped operation was actually invoked. -/
structure Breaker where
  cfg : CBConfig
  state : BState
  successes : Nat
  failures : Nat
  openedAt : Nat
  probing : Bool
  invocations : Nat
  deriving Repr, DecidableEq

/-- A freshly created breaker (createCircuitBreaker): Closed, empty stats. -/
def createCircuitBreaker (cfg : CBConfig) : Breaker :=
  { cfg := cfg, state := .Closed, successes := 0, failures := 0,
    openedAt := 0, probing := false, invocations := 0 }

/-- Spec section 4.1: the circuit opens when total attempts in the window
reach volumeThreshold and the failure rate reaches
errorThresholdPercentage. -/
def shouldOpen (cfg : CBConfig) (s f : Nat) : Bool :=
  cfg.volumeThreshold ≤ s + f && cfg.errorThresholdPercentage * (s + f) ≤ f * 100

/-- Modelled from the spec (section 4.1): the admission decision of
fire(args) at time now.  Returns the updated breaker and whether the call
was admitted (true) or rejected with CircuitOpenError (false). -/
def fire (b : Breaker) (now : Nat) : Breaker × Bool :=
  match b.state with
  | .Closed => ({ b with invocations := b.invocations + 1 }, true)
  | .Open =>
    if b.openedAt + b.cfg.resetTimeout ≤ now then
      ({ b with state := .HalfOpen, probing := true,
                invocations := b.invocations + 1 }, true)
    else
      (b, false)
  | .HalfOpen =>
    if b.probing then (b, false)
    else ({ b with probing := true, invocations := b.invocations + 1 }, true)

/-- Modelled from the spec (section 4.1): settlement of an admitted call at
time now with outcome ok (a timed-out call settles with ok = false).  In
Closed the statistics update and the open condition is checked; in
HalfOpen the probe outcome decides the next state. -/
def settle (b : Breaker) (now : Nat) (ok : Bool) : Breaker :=
  match b.state with
  | .Closed =>
    let s := b.successes + (if ok then 1 else 0)
    let f := b.failures + (if ok then 0 else 1)
    if shouldOpen b.cfg s f then
      { b with state := .Open, successes := s, failures := f, openedAt := now }
    else
      { b with successes := s, failures := f }
  | .HalfOpen =>
    if ok then
      { b with state := .Closed, successes := 0, failures := 0, probing := false }
    else
      { b with state := .Open, openedAt := now, probing := false }
  | .Open => b

/-- One complete call attempt at time now with outcome ok: admission
followed, when admitted, by settlement. -/
def callAt (b : Breaker) (now : Nat) (ok : Bool) : Breaker :=
  let fb := fire b now
  if fb.2 then settle fb.1 now ok else fb.1

/-- A burst of call attempts, all at time 0 (inside one rolling window). -/
def runCalls (b : Breaker) (l : List Bool) : Breaker :=
  l.foldl (fun b ok => callAt b 0 ok) b

/-- Number of failed outcomes in a call sequence. -/
def countFalse : List Bool → Nat
  | [] => 0
  | b :: t => (if b then 0 else 1) + countFalse t

/-- Number of successful outcomes in a call sequence. -/
def countTrue : List Bool → Nat
  | [] => 0
  | b :: t => (if b then 1 else 0) + countTrue t

/-- Events observable on a breaker, for the transition-edge invariant. -/
inductive BEvent where
  | fireE (now : Nat)
  | settleE (now : Nat) (ok : Bool)
  deriving Repr, DecidableEq

/-- Apply one event to a breaker. -/
def stepB (b : Breaker) (e : BEvent) : Breaker :=
  match e with
  | .fireE now => (fire b now).1
  | .settleE now ok => settle b now ok

/-- State string reported by getCircuitBreakerStats
(src/src/lib/auth.ts line 206): opened maps to OPEN, halfOpen to
HALF_OPEN, anything else to CLOSED. -/
def statsState (b : Breaker) : String :=
  if b.state = .Open then "OPEN"
  else if b.state = .HalfOpen then "HALF_OPEN"
  else "CLOSED"

theorem countTrue_add_countFalse (l : List Bool) :
    countTrue l + countFalse l = l.length := by
  induction l with
  | nil => rfl
  | cons b t ih =>
    simp only [countTrue, countFalse, List.length_cons]
    cases b <;> simp <;> omega

theorem countTrue_snoc (l : List Bool) (ok : Bool) :
    countTrue (l ++ [ok]) = countTrue l + (if ok then 1 else 0) := by
  induction l with
  | nil => simp [countTrue]
  | cons b t ih => simp only [List.cons_append, countTrue, List.append_eq, ih]; omega

theorem countFalse_snoc (l : List Bool) (ok : Bool) :
    countFalse (l ++ [ok]) = countFalse l + (if ok then 0 else 1) := by
  induction l with
  | nil => simp [countFalse]
  | cons b t ih => simp only [List.cons_append, countFalse, List.append_eq, ih]; omega

/-- The invariant threaded through a closed-window burst: either the
circuit has opened (at time 0), or it is still Closed, its statistics
count the processed outcomes exactly, and the open condition has not yet
been met. -/
def BurstInv (cfg : CBConfig) (l : List Bool) (b : Breaker) : Prop :=
  b.cfg = cfg ∧
  ((b.state = .Open ∧ b.openedAt = 0) ∨
   (b.state = .Closed ∧ b.successes = countTrue l ∧ b.failures = countFalse l ∧
    shouldOpen cfg (countTrue l) (countFalse l) = false))

theorem burst_step (cfg : CBConfig) (hrt : 0 < cfg.resetTimeout)
    (l : List Bool) (ok : Bool) (b : Breaker) (h : BurstInv cfg l b) :
    BurstInv cfg (l ++ [ok]) (callAt b 0 ok) := by
  obtain ⟨hcfg, hinv⟩ := h
  rcases hinv with ⟨hst, hop⟩ | ⟨hst, hs, hf, hcond⟩
  · -- already Open at time 0: the fire at time 0 is rejected, nothing changes
    have hfire : fire b 0 = (b, false) := by
      simp [fire, hst, hop, hcfg]
      omega
    refine ⟨?_, Or.inl ⟨?_, ?_⟩⟩ <;> simp [callAt, hfire, hcfg, hst, hop]
  · -- still Closed: the call is admitted and settles
    have hfire : fire b 0 = ({ b with invocations := b.invocations + 1 }, true) := by
      simp [fire, hst]
    have hcall : callAt b 0 ok =
        settle { b with invocations := b.invocations + 1 } 0 ok := by
      simp [callAt, hfire]
    have hct := countTrue_snoc l ok
    have hcf := countFalse_snoc l ok
    by_cases hopen : shouldOpen cfg (countTrue l + (if ok then 1 else 0))
        (countFalse l + (if ok then 0 else 1)) = true
    · refine ⟨?_, Or.inl ⟨?_, ?_⟩⟩ <;>
        simp [hcall, settle, hst, hs, hf, hcfg, hopen]
    · rw [Bool.not_eq_true] at hopen
      refine ⟨?_, Or.inr ⟨?_, ?_, ?_, ?_⟩⟩ <;>
        simp [hcall, settle, hst, hs, hf, hcfg, hopen, hct, hcf]

theorem burst_run (cfg : CBConfig) (hvt : 0 < cfg.volumeThreshold)
    (hrt : 0 < cfg.resetTimeout) (l : List Bool) :
    BurstInv cfg l (runCalls (createCircuitBreaker cfg) l) := by
  have base : BurstInv cfg [] (createCircuitBreaker cfg) := by
    refine ⟨rfl, Or.inr ⟨rfl, rfl, rfl, ?_⟩⟩
    simp only [countTrue, countFalse, shouldOpen]
    simp
    omega
  have gen : ∀ (l2 l1 : List Bool) (b : Breaker), BurstInv cfg l1 b →
      BurstInv cfg (l1 ++ l2) (l2.foldl (fun b ok => callAt b 0 ok) b) := by
    intro l2
    induction l2 with
    | nil => intro l1 b h; simpa using h
    | cons ok t ih =>
      intro l1 b h
      have h2 := burst_step cfg hrt l1 ok b h
      have h3 := ih (l1 ++ [ok]) _ h2
      simpa using h3
  have := gen l [] (createCircuitBreaker cfg) base
  simpa [runCalls] using this

/-- C1: a burst of at least volumeThreshold calls, all inside one rolling
window, whose failure rate is at least errorThresholdPercentage drives the
breaker Open, and every subsequent fire before resetTimeout milliseconds
have elapsed is rejected without invoking the wrapped operation (the
breaker, including its invocation counter, is returned unchanged together
with the rejection flag). -/
theorem breaker_opens_and_fails_fast (cfg : CBConfig) (l : List Bool)
    (hvt : 0 < cfg.volumeThreshold) (hrt : 0 < cfg.resetTimeout)
    (hlen : cfg.volumeThreshold ≤ l.length)
    (hrate : cfg.errorThresholdPercentage * l.length ≤ countFalse l * 100) :
    (runCalls (createCircuitBreaker cfg) l).state = .Open ∧
    ∀ now, now < cfg.resetTimeout →
      fire (runCalls (createCircuitBreaker cfg) l) now
        = (runCalls (createCircuitBreaker cfg) l, false) := by
  have h := burst_run cfg hvt hrt l
  obtain ⟨hcfg, hinv⟩ := h
  have hsum := countTrue_add_countFalse l
  have hopen : shouldOpen cfg (countTrue l) (countFalse l) = true := by
    simp only [shouldOpen, Bool.and_eq_true, decide_eq_true_eq]
    rw [hsum]
    exact ⟨hlen, hrate⟩
  rcases hinv with ⟨hst, hop⟩ | ⟨hst, hs, hf, hcond⟩
  · refine ⟨hst, ?_⟩
    intro now hnow
    simp [fire, hst, hop, hcfg]
    omega
  · rw [hopen] at hcond
    exact absurd hcond (by simp)

/-- C1 witness: the default configuration from src/src/lib/auth.ts lines
82-88 with five straight failures opens the circuit and a fire at
29999 ms is rejected. -/
theorem breaker_opens_and_fails_fast_witness :
    (runCalls (createCircuitBreaker ⟨10000, 50, 30000, 5⟩)
        [false, false, false, false, false]).state = .Open ∧
    fire (runCalls (createCircuitBreaker ⟨10000, 50, 30000, 5⟩)
        [false, false, false, false, false]) 29999
      = (runCalls (createCircuitBreaker ⟨10000, 50, 30000, 5⟩)
        [false, false, false, false, false], false) := by
  have h := breaker_opens_and_fails_fast ⟨10000, 50, 30000, 5⟩
    [false, false, false, false, false]
    (by decide) (by decide) (by decide) (by decide)
  exact ⟨h.1, h.2 29999 (by decide)⟩

/-- The breaker that results from admitting the half-open probe. -/
def probeAdmitted (b : Breaker) : Breaker :=
  { b with state := .HalfOpen, probing := true, invocations := b.invocations + 1 }

/-- C7: once resetTimeout has elapsed in Open, a fire is admitted as the
single probe (state becomes HalfOpen with the probe flag set and the
wrapped operation invoked once more); while that probe is outstanding any
other fire is rejected with the breaker unchanged; and the probe's
settlement alone decides the next state: success leads to Closed, failure
back to Open. -/
theorem breaker_half_open_probe (b b' : Breaker) (now now2 n : Nat)
    (hO : b.state = .Open) (ht : b.openedAt + b.cfg.resetTimeout ≤ now)
    (hH : b'.state = .HalfOpen) (hp : b'.probing = true) :
    fire b now = (probeAdmitted b, true) ∧
    (probeAdmitted b).state = .HalfOpen ∧ (probeAdmitted b).probing = true ∧
    fire b' now2 = (b', false) ∧
    (settle b' n true).state = .Closed ∧
    (settle b' n false).state = .Open := by
  refine ⟨?_, rfl, rfl, ?_, ?_, ?_⟩
  · simp [fire, hO, ht, probeAdmitted]
  · simp [fire, hH, hp]
  · simp [settle, hH]
  · simp [settle, hH]

/-- A concrete Open breaker past its reset timeout, for the C7 witness. -/
def openBreakerW : Breaker :=
  { cfg := ⟨10000, 50, 30000, 5⟩, state := .Open, successes := 2, failures := 3, openedAt := 0, probing := false, invocations := 5 }

/-- A concrete HalfOpen breaker with an outstanding probe, for the C7
witness. -/
def probingBreakerW : Breaker :=
  { cfg := ⟨10000, 50, 30000, 5⟩, state := .HalfOpen, successes := 2, failures := 3, openedAt := 0, probing := true, invocations := 6 }

/-- C7 witness: a concrete Open breaker past its reset timeout admits the
probe, a concrete probing HalfOpen breaker rejects a second call, and the
probe outcome decides Closed versus Open. -/
theorem breaker_half_open_probe_witness :
    fire openBreakerW 30000 = (probeAdmitted openBreakerW, true) ∧
    (probeAdmitted openBreakerW).state = .HalfOpen ∧
    (probeAdmitted openBreakerW).probing = true ∧
    fire probingBreakerW 30001 = (probingBreakerW, false) ∧
    (settle probingBreakerW 30002 true).state = .Closed ∧
    (settle probingBreakerW 30002 false).state = .Open :=
  breaker_half_open_probe openBreakerW probingBreakerW 30000 30001 30002
    rfl (by decide) rfl rfl

/-- C8: the breaker state is always one of Closed, Open, HalfOpen, the
monitoring view of getCircuitBreakerStats reports exactly one of the three
state strings, and every event either leaves the state unchanged or moves
along one of the four edges Closed to Open, Open to HalfOpen (only once
resetTimeout has elapsed), HalfOpen to Closed, HalfOpen to Open. -/
theorem breaker_transition_edges (b : Breaker) (e : BEvent) :
    (b.state = .Closed ∨ b.state = .Open ∨ b.state = .HalfOpen) ∧
    (statsState b = "OPEN" ∨ statsState b = "HALF_OPEN" ∨ statsState b = "CLOSED") ∧
    ((stepB b e).state = b.state ∨
     (b.state = .Closed ∧ (stepB b e).state = .Open) ∨
     (b.state = .Open ∧ (stepB b e).state = .HalfOpen ∧
       ∃ now, e = .fireE now ∧ b.openedAt + b.cfg.resetTimeout ≤ now) ∨
     (b.state = .HalfOpen ∧
       ((stepB b e).state = .Closed ∨ (stepB b e).state = .Open))) := by
  refine ⟨?_, ?_, ?_⟩
  · cases h : b.state <;> simp
  · cases h : b.state <;> simp [statsState, h]
  · cases e with
    | fireE now =>
      cases h : b.state with
      | Closed => left; simp [stepB, fire, h]
      | Open =>
        by_cases ht : b.openedAt + b.cfg.resetTimeout ≤ now
        · right; right; left
          exact ⟨rfl, by simp [stepB, fire, h, ht], now, rfl, ht⟩
        · left; simp [stepB, fire, h, ht]
      | HalfOpen =>
        by_cases hp : b.probing = true
        · left; simp [stepB, fire, h, hp]
        · left; simp [stepB, fire, h, hp]
    | settleE now ok =>
      cases h : b.state with
      | Closed =>
        by_cases hopen : shouldOpen b.cfg
            (b.successes + (if ok then 1 else 0))
            (b.failures + (if ok then 0 else 1)) = true
        · right; left; exact ⟨rfl, by simp [stepB, settle, h, hopen]⟩
        · left
          rw [Bool.not_eq_true] at hopen
          simp [stepB, settle, h, hopen]
      | Open => left; simp [stepB, settle, h]
      | HalfOpen =>
        right; right; right
        refine ⟨rfl, ?_⟩
        cases ok
        · right; simp [stepB, settle, h]
        · left; simp [stepB, settle, h]

/-! ## Rate limiter

Modelled from the spec: the Bottleneck library used by createRateLimiter
(src/src/lib/rate-limiter.ts lines 35-96) is not part of the repository
sources; the admission semantics are taken from the specification
(sections 3, 4.2 and 5).  The runtime reservoir is an integer so that the
never-below-zero invariant is a real statement; configuration counts are
naturals.  The started list records, in order, the jobs whose execution
has begun.  The failed-event handler of createRateLimiter is translated
directly from the source. -/

/-- Configuration of createRateLimiter, field names from
src/src/lib/rate-limiter.ts lines 23-30.  The reservoir field is both the
initial token count and the refill cap (reservoirMax in the spec). -/
structure RLConfig where
  maxConcurrent : Nat
  minTime : Nat
  reservoir : Nat
  reservoirRefreshAmount : Nat
  reservoirRefreshInterval : Nat
  deriving Repr, DecidableEq

/-- Modelled from the spec: limiter runtime state.  queue is the FIFO list
of pending job ids, started the log of jobs whose execution has begun, in
admission order, lastAdmit the time of the most recent admission. -/
structure RLState where
  cfg : RLConfig
  reservoir : Int
  running : Nat
  queue : List Nat
  lastAdmit : Option Nat
  started : List Nat
  deriving Repr, DecidableEq

/-- A freshly created limiter (createRateLimiter): full reservoir, nothing
running, empty queue. -/
def createRateLimiter (cfg : RLConfig) : RLState :=
  { cfg := cfg, reservoir := cfg.reservoir, running := 0, queue := [],
    lastAdmit := none, started := [] }

/-- Spec section 4.2 admission test at time t: at least one token, a free
concurrency slot, and minTime elapsed since the last admission. -/
def admissible (s : RLState) (t : Nat) : Bool :=
  1 ≤ s.reservoir && s.running < s.cfg.maxConcurrent &&
    (match s.lastAdmit with
     | none => true
     | some t0 => t0 + s.cfg.minTime ≤ t)

/-- Admit job j at time t: consume one token, occupy a slot, log the
start. -/
def admitOne (s : RLState) (j t : Nat) : RLState :=
  { s with reservoir := s.reservoir - 1, running := s.running + 1,
           lastAdmit := some t, started := s.started ++ [j] }

/-- Admit jobs from the pending list in FIFO order while the admission
test holds; the rest stay queued. -/
def drainAux (t : Nat) : List Nat → RLState → RLState
  | [], s => s
  | j :: rest, s =>
    if admissible s t then drainAux t rest (admitOne s j t)
    else { s with queue := s.queue ++ j :: rest }

/-- Re-examine the queue at time t after capacity may have appeared. -/
def drain (s : RLState) (t : Nat) : RLState :=
  drainAux t s.queue { s with queue := [] }

/-- Spec section 4.2: a submission joins the back of the FIFO queue and the
queue is drained; a call that cannot be admitted stays queued instead of
executing. -/
def submit (s : RLState) (j t : Nat) : RLState :=
  drain { s with queue := s.queue ++ [j] } t

/-- A running call completes at time t, freeing its concurrency slot. -/
def finish (s : RLState) (t : Nat) : RLState :=
  drain { s with running := s.running - 1 } t

/-- Spec section 4.2: the periodic refill adds reservoirRefreshAmount
tokens, capped at the configured reservoir size, then unblocks the queue
head in FIFO order. -/
def refreshTick (s : RLState) (t : Nat) : RLState :=
  drain { s with reservoir := min (s.reservoir + s.cfg.reservoirRefreshAmount) s.cfg.reservoir } t

/-- Events observable on a limiter. -/
inductive RLEvent where
  | submitE (j t : Nat)
  | finishE (t : Nat)
  | tickE (t : Nat)
  deriving Repr, DecidableEq

/-- Apply one event to a limiter. -/
def stepRL (s : RLState) (e : RLEvent) : RLState :=
  match e with
  | .submitE j t => submit s j t
  | .finishE t => finish s t
  | .tickE t => refreshTick s t

/-- Run a sequence of limiter events. -/
def runRL (s : RLState) (evs : List RLEvent) : RLState :=
  evs.foldl stepRL s

/-- The admission-control invariant of spec section 3: never more than
maxConcurrent calls in flight and the reservoir never below zero. -/
def RLInv (s : RLState) : Prop :=
  s.running ≤ s.cfg.maxConcurrent ∧ 0 ≤ s.reservoir

theorem drainAux_inv (t : Nat) (l : List Nat) (s : RLState) (h : RLInv s) :
    RLInv (drainAux t l s) := by
  induction l generalizing s with
  | nil => exact h
  | cons j rest ih =>
    simp only [drainAux]
    by_cases hadm : admissible s t = true
    · rw [if_pos hadm]
      apply ih
      have hdec := hadm
      simp only [admissible, Bool.and_eq_true, decide_eq_true_eq] at hdec
      exact ⟨hdec.1.2, by have := hdec.1.1; simp [admitOne]; omega⟩
    · rw [if_neg hadm]
      exact h

theorem stepRL_inv (s : RLState) (e : RLEvent) (h : RLInv s) :
    RLInv (stepRL s e) := by
  cases e with
  | submitE j t =>
    exact drainAux_inv t _ _ ⟨h.1, h.2⟩
  | finishE t =>
    refine drainAux_inv t _ _ ⟨?_, h.2⟩
    exact le_trans (Nat.sub_le _ _) h.1
  | tickE t =>
    refine drainAux_inv t _ _ ⟨h.1, ?_⟩
    exact le_min (by have := h.2; omega) (Int.natCast_nonneg _)

theorem runRL_inv (cfg : RLConfig) (evs : List RLEvent) :
    RLInv (runRL (createRateLimiter cfg) evs) := by
  have base : RLInv (createRateLimiter cfg) :=
    ⟨Nat.zero_le _, Int.natCast_nonneg _⟩
  have gen : ∀ (l : List RLEvent) (s : RLState), RLInv s → RLInv (runRL s l) := by
    intro l
    induction l with
    | nil => intro s h; exact h
    | cons e rest ih => intro s h; exact ih _ (stepRL_inv s e h)
  exact gen evs _ base

theorem drainAux_cfg (t : Nat) (l : List Nat) (s : RLState) :
    (drainAux t l s).cfg = s.cfg := by
  induction l generalizing s with
  | nil => rfl
  | cons j rest ih =>
    simp only [drainAux]
    by_cases hadm : admissible s t = true
    · rw [if_pos hadm, ih]; rfl
    · rw [if_neg hadm]

theorem stepRL_cfg (s : RLState) (e : RLEvent) : (stepRL s e).cfg = s.cfg := by
  cases e <;>
    simp [stepRL, submit, finish, refreshTick, drain, drainAux_cfg]

theorem runRL_cfg (s : RLState) (evs : List RLEvent) :
    (runRL s evs).cfg = s.cfg := by
  induction evs generalizing s with
  | nil => rfl
  | cons e rest ih =>
    rw [runRL, List.foldl_cons]
    have h2 : (runRL (stepRL s e) rest).cfg = (stepRL s e).cfg := ih _
    rw [runRL] at h2
    rw [h2, stepRL_cfg]

theorem submit_queues (s : RLState) (j t : Nat) (h : s.reservoir < 1) :
    submit s j t = { s with queue := s.queue ++ [j] } := by
  have hadm : admissible { s with queue := ([] : List Nat) } t = false := by
    have h1 : ¬ (1 ≤ s.reservoir) := by omega
    simp [admissible, h1]
  have hq : ∃ j2 rest, s.queue ++ [j] = j2 :: rest := by
    cases hq2 : s.queue ++ [j] with
    | nil => simp at hq2
    | cons a b => exact ⟨a, b, rfl⟩
  obtain ⟨j2, rest, hq⟩ := hq
  show drainAux t (s.queue ++ [j]) { s with queue := [] }
    = { s with queue := s.queue ++ [j] }
  rw [hq, drainAux, if_neg (by rw [hadm]; simp)]
  simp

/-- C3: the limiter invariant holds at every point of every event sequence
started from a fresh limiter: the number of in-flight calls never exceeds
maxConcurrent and the reservoir never goes below zero; moreover a
submission arriving when no token is available is appended to the FIFO
queue with the limiter otherwise unchanged (in particular it is not
executed). -/
theorem limiter_invariant (cfg : RLConfig) (evs : List RLEvent)
    (s : RLState) (j t : Nat) (hres : s.reservoir < 1) :
    ((runRL (createRateLimiter cfg) evs).running ≤ cfg.maxConcurrent ∧
     0 ≤ (runRL (createRateLimiter cfg) evs).reservoir) ∧
    submit s j t = { s with queue := s.queue ++ [j] } := by
  have hinv := runRL_inv cfg evs
  have hcfg : (runRL (createRateLimiter cfg) evs).cfg = cfg :=
    runRL_cfg (createRateLimiter cfg) evs
  refine ⟨⟨?_, hinv.2⟩, submit_queues s j t hres⟩
  have := hinv.1
  rw [hcfg] at this
  exact this

/-- A concrete limiter with an empty reservoir, for the C3 witness. -/
def depletedLimiterW : RLState :=
  { cfg := ⟨1, 0, 3, 3, 1000⟩, reservoir := 0, running := 1, queue := [7], lastAdmit := some 0, started := [4] }

/-- C3 witness: one submission against a fresh one-slot limiter keeps the
invariant, and a submission to a depleted limiter is queued behind the
existing queue with nothing else changed. -/
theorem limiter_invariant_witness :
    ((runRL (createRateLimiter ⟨1, 0, 3, 3, 1000⟩) [RLEvent.submitE 1 0]).running ≤ 1 ∧
     0 ≤ (runRL (createRateLimiter ⟨1, 0, 3, 3, 1000⟩) [RLEvent.submitE 1 0]).reservoir) ∧
    submit depletedLimiterW 9 5 = { depletedLimiterW with queue := depletedLimiterW.queue ++ [9] } :=
  limiter_invariant ⟨1, 0, 3, 3, 1000⟩ [RLEvent.submitE 1 0] depletedLimiterW 9 5 (by decide)

theorem drainAux_fifo (t : Nat) (l : List Nat) (s : RLState) (hq : s.queue = []) :
    ∃ k, (drainAux t l s).started = s.started ++ l.take k ∧
         (drainAux t l s).queue = l.drop k := by
  induction l generalizing s with
  | nil => exact ⟨0, by simp [drainAux], by simp [drainAux, hq]⟩
  | cons j rest ih =>
    simp only [drainAux]
    by_cases hadm : admissible s t = true
    · rw [if_pos hadm]
      obtain ⟨k, h1, h2⟩ := ih (admitOne s j t) (by simp [admitOne, hq])
      refine ⟨k + 1, ?_, ?_⟩
      · rw [h1]; simp [admitOne]
      · rw [h2]; simp
    · rw [if_neg hadm]
      exact ⟨0, by simp, by simp [hq]⟩

/-- The list of pending jobs an event has to serve, in FIFO order: a
submission goes behind the existing queue, the other events serve the
queue as it stands. -/
def pendingAfter (s : RLState) (e : RLEvent) : List Nat :=
  match e with
  | .submitE j _ => s.queue ++ [j]
  | .finishE _ => s.queue
  | .tickE _ => s.queue

/-- C6: execution order is strictly FIFO: every event starts some initial
segment of the pending list (queued jobs first, a new submission last) and
leaves exactly the remaining suffix queued, so among queued requests the
one submitted first begins executing first; and in the concrete scenario
reservoir 3, refill 3 every 1000 ms, five submissions at t = 0, exactly
jobs 1, 2, 3 start immediately, 4 and 5 stay queued, and the refill tick
starts 4 and 5 in submission order. -/
theorem limiter_fifo_order (s : RLState) (e : RLEvent) :
    (∃ k, (stepRL s e).started = s.started ++ (pendingAfter s e).take k ∧
          (stepRL s e).queue = (pendingAfter s e).drop k) ∧
    (runRL (createRateLimiter ⟨5, 0, 3, 3, 1000⟩)
      [.submitE 1 0, .submitE 2 0, .submitE 3 0, .submitE 4 0, .submitE 5 0]).started = [1, 2, 3] ∧
    (runRL (createRateLimiter ⟨5, 0, 3, 3, 1000⟩)
      [.submitE 1 0, .submitE 2 0, .submitE 3 0, .submitE 4 0, .submitE 5 0]).queue = [4, 5] ∧
    (runRL (createRateLimiter ⟨5, 0, 3, 3, 1000⟩)
      [.submitE 1 0, .submitE 2 0, .submitE 3 0, .submitE 4 0, .submitE 5 0, .tickE 1000]).started = [1, 2, 3, 4, 5] ∧
    (runRL (createRateLimiter ⟨5, 0, 3, 3, 1000⟩)
      [.submitE 1 0, .submitE 2 0, .submitE 3 0, .submitE 4 0, .submitE 5 0, .tickE 1000]).queue = [] := by
  refine ⟨?_, by decide, by decide, by decide, by decide⟩
  cases e with
  | submitE j t => exact drainAux_fifo t _ _ rfl
  | finishE t => exact drainAux_fifo t _ _ rfl
  | tickE t => exact drainAux_fifo t _ _ rfl

/-! ## Rate limiter retry policy

The failed-event handler is translated from src/src/lib/rate-limiter.ts
lines 68-78: on a failed job it returns a 5000 ms retry delay when the
error message contains the substring "rate limit" or "429", and nothing
otherwise; Bottleneck retries a failed job exactly when the handler
returns a delay. -/

/-- Decides whether the pattern is an initial segment of the list. -/
def listStarts : List Char → List Char → Bool
  | [], _ => true
  | _ :: _, [] => false
  | a :: as, b :: bs => a == b && listStarts as bs

/-- Decides whether the pattern occurs as a contiguous substring. -/
def listHasSub (p : List Char) : List Char → Bool
  | [] => p.isEmpty
  | b :: bs => listStarts p (b :: bs) || listHasSub p bs

/-- String-level substring test, the model of JavaScript
String.prototype.includes as used by the failed handler. -/
def strHasSub (p s : String) : Bool :=
  listHasSub p.toList s.toList

/-- The failed-event handler of createRateLimiter
(src/src/lib/rate-limiter.ts lines 68-78): returns the retry delay for
rate-limit-class errors, nothing for any other failure. -/
def onFailed (msg : String) : Option Nat :=
  if strHasSub "rate limit" msg || strHasSub "429" msg then some 5000 else none

/-- Modelled from the spec: the effect of a job failure on the limiter
(the Bottleneck retry mechanism itself is not part of the repository
sources).  The running slot is released, and the job is re-enqueued for a
delayed retry exactly when onFailed returns a delay. -/
def handleFailure (s : RLState) (j : Nat) (msg : String) : RLState × Option Nat :=
  match onFailed msg with
  | some d => ({ s with running := s.running - 1, queue := s.queue ++ [j] }, some d)
  | none => ({ s with running := s.running - 1 }, none)

theorem listStarts_iff (p l : List Char) :
    listStarts p l = true ↔ ∃ r, l = p ++ r := by
  induction p generalizing l with
  | nil => simp [listStarts]
  | cons a as ih =>
    cases l with
    | nil => simp [listStarts]
    | cons b bs =>
      simp only [listStarts, Bool.and_eq_true, beq_iff_eq, ih, List.cons_append,
        List.cons.injEq]
      constructor
      · rintro ⟨h1, r, h2⟩; exact ⟨r, h1.symm, h2⟩
      · rintro ⟨r, h1, h2⟩; exact ⟨h1.symm, r, h2⟩

theorem listHasSub_iff (p l : List Char) :
    listHasSub p l = true ↔ ∃ u v, l = u ++ p ++ v := by
  induction l with
  | nil =>
    simp only [listHasSub, List.isEmpty_iff]
    constructor
    · rintro rfl; exact ⟨[], [], rfl⟩
    · rintro ⟨u, v, h⟩
      rcases List.append_eq_nil.mp h.symm with ⟨h1, h2⟩
      exact (List.append_eq_nil.mp h1).2
  | cons b bs ih =>
    simp only [listHasSub, Bool.or_eq_true, listStarts_iff, ih]
    constructor
    · rintro (⟨r, hr⟩ | ⟨u, v, huv⟩)
      · exact ⟨[], r, by simp [hr]⟩
      · exact ⟨b :: u, v, by simp [huv]⟩
    · rintro ⟨u, v, huv⟩
      cases u with
      | nil => exact Or.inl ⟨v, by simpa using huv⟩
      | cons c cs =>
        right
        refine ⟨cs, v, ?_⟩
        simp only [List.cons_append, List.cons.injEq] at huv
        exact huv.2

/-- C4: a failed call is re-enqueued for a retry after the fixed 5000 ms
delay exactly when its error message contains the substring "rate limit"
or "429"; any other failure releases the slot and is never automatically
retried.  The substring test is characterised as the existence of a
contiguous occurrence in the message. -/
theorem limiter_retry_policy (s : RLState) (j : Nat) (msg : String) :
    ((handleFailure s j msg).2.isSome
       = (strHasSub "rate limit" msg || strHasSub "429" msg)) ∧
    (strHasSub "rate limit" msg = true ∨ strHasSub "429" msg = true →
      handleFailure s j msg
        = ({ s with running := s.running - 1, queue := s.queue ++ [j] }, some 5000)) ∧
    (¬(strHasSub "rate limit" msg = true ∨ strHasSub "429" msg = true) →
      handleFailure s j msg = ({ s with running := s.running - 1 }, none)) ∧
    (strHasSub "rate limit" msg = true
       ↔ ∃ u v, msg.toList = u ++ "rate limit".toList ++ v) ∧
    (strHasSub "429" msg = true
       ↔ ∃ u v, msg.toList = u ++ "429".toList ++ v) := by
  refine ⟨?_, ?_, ?_, listHasSub_iff _ _, listHasSub_iff _ _⟩
  · by_cases h : (strHasSub "rate limit" msg || strHasSub "429" msg) = true
    · simp [handleFailure, onFailed, h]
    · rw [Bool.not_eq_true] at h
      simp [handleFailure, onFailed, h]
  · intro h
    have h2 : (strHasSub "rate limit" msg || strHasSub "429" msg) = true := by
      rcases h with h | h <;> simp [h]
    simp [handleFailure, onFailed, h2]
  · intro h
    have h1 : strHasSub "rate limit" msg = false := by
      cases hb : strHasSub "rate limit" msg
      · rfl
      · exact absurd (Or.inl hb) h
    have h2 : strHasSub "429" msg = false := by
      cases hb : strHasSub "429" msg
      · rfl
      · exact absurd (Or.inr hb) h
    simp [handleFailure, onFailed, h1, h2]

/-- C4 witness: a 429 error message is re-enqueued with the 5000 ms delay,
a generic network error is not retried. -/
theorem limiter_retry_policy_witness :
    handleFailure depletedLimiterW 9 "Request failed with status code 429"
      = ({ depletedLimiterW with running := depletedLimiterW.running - 1, queue := depletedLimiterW.queue ++ [9] }, some 5000) ∧
    handleFailure depletedLimiterW 9 "ECONNRESET"
      = ({ depletedLimiterW with running := depletedLimiterW.running - 1 }, none) :=
  ⟨(limiter_retry_policy depletedLimiterW 9 "Request failed with status code 429").2.1
      (Or.inr (by decide)),
   (limiter_retry_policy depletedLimiterW 9 "ECONNRESET").2.2.1
      (by intro h; rcases h with h | h <;> revert h <;> decide)⟩


/-! ## Pipeline executor

Modelled from the spec: the Pipeline engine lives in
src/lib/workflows/Pipeline.ts, which is referenced by the post-to-profile
workflow and the POST /api/linkedin/post handler (src/unnamed/part_001)
but is not among the available sources; its execution semantics are taken
from the specification (sections 3, 4.3 and 6).  A step action either
returns a new context or fails with an error message.  Following the
caller in src/unnamed/part_001 line 50, the accumulated context exposed on
the result is named finalData (the specification calls it finalContext).
Contexts are open field maps, modelled as association lists where the
first binding of a key wins. -/

/-- One entry of the execution report: step name, outcome, captured
error. -/
structure StepResult where
  stepName : String
  success : Bool
  error : Option String
  deriving Repr, DecidableEq

/-- The pipeline result consumed by the calling workflow:
success flag, accumulated context, ordered per-step report. -/
structure PipelineResult (C : Type) where
  success : Bool
  finalData : C
  results : List StepResult
  deriving Repr, DecidableEq

/-- Modelled from the spec: run the named steps strictly in declaration
order, threading the context; on the first failure stop, record the
failing step with its cause, and omit all later steps from the report. -/
def runSteps {C : Type} : List (String × (C → Except String C)) → C → List StepResult → PipelineResult C
  | [], ctx, acc => { success := true, finalData := ctx, results := acc }
  | st :: rest, ctx, acc =>
    match st.2 ctx with
    | .ok ctx2 => runSteps rest ctx2 (acc ++ [{ stepName := st.1, success := true, error := none }])
    | .error e => { success := false, finalData := ctx, results := acc ++ [{ stepName := st.1, success := false, error := some e }] }

/-- Execute a built pipeline on an initial context. -/
def execute {C : Type} (steps : List (String × (C → Except String C))) (init : C) : PipelineResult C :=
  runSteps steps init []

/-- C2: in a three-step pipeline where the first step succeeds and the
second fails, the report lists the first step as successful and the second
as failed with the captured cause, the third step is absent from the
report (its action is never invoked), the overall result is a failure, and
the accumulated context is exactly the context returned by the first
step. -/
theorem pipeline_stops_on_failure {C : Type} (nA nB nC : String)
    (a b c : C → Except String C) (init ctxA : C) (e : String)
    (ha : a init = .ok ctxA) (hb : b ctxA = .error e) :
    execute [(nA, a), (nB, b), (nC, c)] init =
      { success := false, finalData := ctxA,
        results := [{ stepName := nA, success := true, error := none },
                    { stepName := nB, success := false, error := some e }] } := by
  simp [execute, runSteps, ha, hb]

/-- C2 witness: a concrete Nat-context pipeline whose second step fails. -/
theorem pipeline_stops_on_failure_witness :
    execute [("get-credentials", fun n => Except.ok (n + 1)),
             ("generate-content", fun _ => (Except.error "boom" : Except String Nat)),
             ("post-to-linkedin", fun n => Except.ok n)] 0 =
      { success := false, finalData := 1,
        results := [{ stepName := "get-credentials", success := true, error := none },
                    { stepName := "generate-content", success := false, error := some "boom" }] } :=
  pipeline_stops_on_failure "get-credentials" "generate-content" "post-to-linkedin"
    (fun n => Except.ok (n + 1)) (fun _ => Except.error "boom") (fun n => Except.ok n)
    0 1 "boom" rfl rfl

/-- An open context: an association list of named fields where the first
binding of a key is the visible one. -/
def lookupField {V : Type} (k : String) : List (String × V) → Option V
  | [] => none
  | (k2, v) :: rest => if k2 = k then some v else lookupField k rest

/-- Merge a patch of returned fields into a context: the patch fields
shadow the context fields (spec section 3 merge semantics). -/
def mergeCtx {V : Type} (c p : List (String × V)) : List (String × V) :=
  p ++ c

/-- Steps of the spread form used by the post-to-profile workflow: each
step succeeds and returns the current context merged with its own patch of
fields. -/
def patchSteps {V : Type} (l : List (String × List (String × V))) :
    List (String × (List (String × V) → Except String (List (String × V)))) :=
  l.map (fun np => (np.1, fun c => Except.ok (mergeCtx c np.2)))

theorem lookupField_append {V : Type} (k : String) (p c : List (String × V)) :
    lookupField k (p ++ c)
      = match lookupField k p with
        | some v => some v
        | none => lookupField k c := by
  induction p with
  | nil => simp [lookupField]
  | cons kv rest ih =>
    by_cases hk : kv.1 = k
    · simp [lookupField, hk]
    · simp [lookupField, hk, ih]

theorem runSteps_patches {V : Type} (l : List (String × List (String × V)))
    (init : List (String × V)) (acc : List StepResult) :
    runSteps (patchSteps l) init acc =
      { success := true,
        finalData := (l.map Prod.snd).foldl mergeCtx init,
        results := acc ++ l.map (fun np => { stepName := np.1, success := true, error := none }) } := by
  induction l generalizing init acc with
  | nil => simp [patchSteps, runSteps]
  | cons np rest ih =>
    simp only [patchSteps, List.map_cons, runSteps, List.foldl_cons]
    rw [show patchSteps rest = rest.map (fun np => (np.1, fun c => Except.ok (mergeCtx c np.2))) from rfl] at ih
    rw [ih]
    simp

/-- C5: a pipeline in which every step succeeds, each returning its
context merged with a patch of fields, reports overall success, lists
every step as successful, and exposes as its accumulated finalData field
the cumulative merge of the initial context with every patch; on a key
collision a later patch shadows both the initial context and every earlier
patch (and keys no patch defines keep their initial binding). -/
theorem pipeline_merges_contexts {V : Type}
    (l : List (String × List (String × V))) (init : List (String × V)) :
    (execute (patchSteps l) init).success = true ∧
    (execute (patchSteps l) init).finalData = (l.map Prod.snd).foldl mergeCtx init ∧
    (execute (patchSteps l) init).results
      = l.map (fun np => { stepName := np.1, success := true, error := none }) ∧
    (∀ (k : String) (v : V) (c p : List (String × V)),
      lookupField k p = some v → lookupField k (mergeCtx c p) = some v) ∧
    (∀ (k : String) (c p : List (String × V)),
      lookupField k p = none → lookupField k (mergeCtx c p) = lookupField k c) := by
  refine ⟨?_, ?_, ?_, ?_, ?_⟩
  · rw [execute, runSteps_patches]
  · rw [execute, runSteps_patches]
  · rw [execute, runSteps_patches]; simp
  · intro k v c p hsome
    rw [mergeCtx, lookupField_append, hsome]
  · intro k c p hnone
    rw [mergeCtx, lookupField_append, hnone]

/-- Steps for the C5 witness: two all-succeeding patch steps with a key
collision on generatedContent. -/
def wSteps : List (String × List (String × Nat)) :=
  [("generate-content", [("generatedContent", 1)]),
   ("post-to-linkedin", [("generatedContent", 2), ("postResult", 3)])]

/-- Initial context for the C5 witness. -/
def wInit : List (String × Nat) := [("userId", 7)]

/-- C5 witness: the concrete two-step pipeline succeeds, and the merge
semantics instances hold at concrete keys (collision shadowed by the later
patch, untouched key falling through to the context). -/
theorem pipeline_merges_contexts_witness :
    (execute (patchSteps wSteps) wInit).success = true ∧
    (execute (patchSteps wSteps) wInit).finalData
      = (wSteps.map Prod.snd).foldl mergeCtx wInit ∧
    lookupField "generatedContent"
      (mergeCtx [("generatedContent", (1 : Nat))] [("generatedContent", 2), ("postResult", 3)]) = some 2 ∧
    lookupField "userId"
      (mergeCtx [("userId", (7 : Nat))] [("generatedContent", 1)])
      = lookupField "userId" [("userId", (7 : Nat))] :=
  ⟨(pipeline_merges_contexts wSteps wInit).1,
   (pipeline_merges_contexts wSteps wInit).2.1,
   (pipeline_merges_contexts wSteps wInit).2.2.2.1 "generatedContent" 2 _ _ (by decide),
   (pipeline_merges_contexts wSteps wInit).2.2.2.2 "userId" _ _ (by decide)⟩

/-! ## Credential encryption

Translated from src/src/lib/auth.ts lines 215-265 (encryption.ts in the
repository): encrypt produces hex(iv) ++ ":" ++ hex(ciphertext) where the
ciphertext is AES-256-CBC over the PKCS#7-padded plaintext, and decrypt
splits on ":", rejecting any input that does not split into exactly two
parts.  Bytes are naturals below 256; plaintext is the utf8 byte list of
the source string.  The keyed AES block permutation itself is abstracted
as a pair of functions E and D with D inverting E on 16-byte blocks; the
hex coding, the ":" framing, the CBC chaining with the transmitted IV, the
PKCS#7 padding and the format check are modelled concretely.  The
randomBytes IV of the source is an explicit parameter. -/

/-- The sixteen lowercase hex digit characters in value order, as emitted
by the hex encoding of Node Buffer values. -/
def hexChars : List Char :=
  (List.range 16).map (fun n => if n < 10 then Char.ofNat (48 + n) else Char.ofNat (87 + n))

/-- Hex digit for a value below 16. -/
def hexDigit (n : Nat) : Char :=
  hexChars.getD n 'f'

/-- Value of a hex digit character. -/
def hexVal (c : Char) : Option Nat :=
  hexChars.findIdx? (fun d => d == c)

/-- Hex encoding of a byte list, two digits per byte. -/
def bytesToHexL : List Nat → List Char
  | [] => []
  | b :: rest => hexDigit (b / 16) :: hexDigit (b % 16) :: bytesToHexL rest

/-- Hex decoding of an even-length digit string into bytes. -/
def hexToBytesL : List Char → Option (List Nat)
  | [] => some []
  | [_] => none
  | c1 :: c2 :: rest =>
    match hexVal c1, hexVal c2, hexToBytesL rest with
    | some a, some b2, some l => some ((16 * a + b2) :: l)
    | _, _, _ => none

/-- The model of JavaScript String.prototype.split(":"). -/
def splitColon : List Char → List (List Char)
  | [] => [[]]
  | c :: rest =>
    match splitColon rest with
    | [] => [[]]
    | h :: t => if c = ':' then [] :: h :: t else (c :: h) :: t

/-- Bytewise XOR of two equal-length blocks. -/
def xorBytes (a b : List Nat) : List Nat :=
  List.zipWith Nat.xor a b

/-- Split a byte list into 16-byte blocks (fuel-based for structural
recursion; the fuel is instantiated with the list length). -/
def chunkGo : Nat → List Nat → List (List Nat)
  | 0, _ => []
  | _, [] => []
  | fuel + 1, b :: rest => ((b :: rest).take 16) :: chunkGo fuel ((b :: rest).drop 16)

/-- Split into 16-byte blocks. -/
def chunk16 (l : List Nat) : List (List Nat) :=
  chunkGo l.length l

/-- PKCS#7 padding to a multiple of the 16-byte block size, as produced by
the Node cipher used in encrypt. -/
def pad16 (l : List Nat) : List Nat :=
  l ++ List.replicate (16 - l.length % 16) (16 - l.length % 16)

/-- PKCS#7 unpadding, as checked by the Node decipher used in decrypt. -/
def unpad16 (l : List Nat) : Option (List Nat) :=
  match l.getLast? with
  | none => none
  | some p =>
    if 1 ≤ p ∧ p ≤ 16 ∧ p ≤ l.length ∧ (l.drop (l.length - p)).all (fun x => x == p)
    then some (l.take (l.length - p))
    else none

/-- CBC encryption with block transformation E and chaining value prev. -/
def cbcEnc (E : List Nat → List Nat) (prev : List Nat) : List (List Nat) → List (List Nat)
  | [] => []
  | b :: bs => E (xorBytes b prev) :: cbcEnc E (E (xorBytes b prev)) bs

/-- CBC decryption with block transformation D and chaining value prev. -/
def cbcDec (D : List Nat → List Nat) (prev : List Nat) : List (List Nat) → List (List Nat)
  | [] => []
  | c :: cs => xorBytes (D c) prev :: cbcDec D c cs

/-- The ciphertext bytes produced by encrypt before hex encoding. -/
def cipherBytes (E : List Nat → List Nat) (iv text : List Nat) : List Nat :=
  List.flatten (cbcEnc E iv (chunk16 (pad16 text)))

/-- encrypt from src/src/lib/auth.ts lines 233-243: hex of the random IV,
a ":" separator, hex of the CBC ciphertext of the padded plaintext. -/
def encrypt (E : List Nat → List Nat) (iv text : List Nat) : String :=
  String.mk (bytesToHexL iv) ++ ":" ++ String.mk (bytesToHexL (cipherBytes E iv text))

/-- decrypt from src/src/lib/auth.ts lines 248-265: split on ":", reject
unless there are exactly two parts, hex-decode IV and ciphertext,
CBC-decrypt, unpad. -/
def decrypt (D : List Nat → List Nat) (s : String) : Except String (List Nat) :=
  match splitColon s.toList with
  | [ivHex, ctHex] =>
    match hexToBytesL ivHex, hexToBytesL ctHex with
    | some iv, some ct =>
      match unpad16 (List.flatten (cbcDec D iv (chunk16 ct))) with
      | some text => Except.ok text
      | none => Except.error "bad decrypt"
    | _, _ => Except.error "bad decrypt"
  | _ => Except.error "Invalid encrypted data format"

theorem hexVal_hexDigit (n : Nat) (h : n < 16) : hexVal (hexDigit n) = some n := by
  interval_cases n <;> rfl

theorem hexDigit_ne_colon (n : Nat) : hexDigit n ≠ ':' := by
  rcases Nat.lt_or_ge n 16 with h | h
  · interval_cases n <;> decide
  · unfold hexDigit
    rw [List.getD_eq_default]
    · decide
    · have h16 : hexChars.length = 16 := by decide
      omega

theorem colon_not_mem_bytesToHexL (l : List Nat) : ':' ∉ bytesToHexL l := by
  induction l with
  | nil => simp [bytesToHexL]
  | cons b rest ih =>
    simp only [bytesToHexL, List.mem_cons, not_or]
    exact ⟨fun h => hexDigit_ne_colon _ h.symm, fun h => hexDigit_ne_colon _ h.symm, ih⟩

theorem hexToBytesL_bytesToHexL (l : List Nat) (h : ∀ b ∈ l, b < 256) :
    hexToBytesL (bytesToHexL l) = some l := by
  induction l with
  | nil => rfl
  | cons b rest ih =>
    have hb : b < 256 := h b (List.mem_cons_self _ _)
    have h1 : b / 16 < 16 := by omega
    have h2 : b % 16 < 16 := by omega
    have h3 : 16 * (b / 16) + b % 16 = b := by omega
    simp only [bytesToHexL, hexToBytesL, hexVal_hexDigit _ h1, hexVal_hexDigit _ h2,
      ih (fun x hx => h x (List.mem_cons_of_mem _ hx))]
    rw [h3]

theorem splitColon_ne_nil (l : List Char) : splitColon l ≠ [] := by
  cases l with
  | nil => simp [splitColon]
  | cons c rest =>
    simp only [splitColon]
    cases h : splitColon rest with
    | nil => simp
    | cons h2 t => by_cases hc : c = ':' <;> simp [hc]

theorem splitColon_no_colon (l : List Char) (h : ':' ∉ l) : splitColon l = [l] := by
  induction l with
  | nil => rfl
  | cons c rest ih =>
    have hc : ¬ (c = ':') := fun hc => h (hc ▸ List.mem_cons_self _ _)
    have hrest : ':' ∉ rest := fun hr => h (List.mem_cons_of_mem _ hr)
    simp only [splitColon, ih hrest]
    simp [hc]

theorem splitColon_append (l1 l2 : List Char) (h : ':' ∉ l1) :
    splitColon (l1 ++ ':' :: l2) = l1 :: splitColon l2 := by
  induction l1 with
  | nil =>
    simp only [List.nil_append, splitColon]
    cases hs : splitColon l2 with
    | nil => exact absurd hs (splitColon_ne_nil l2)
    | cons h2 t => simp
  | cons c rest ih =>
    have hc : ¬ (c = ':') := fun hc => h (hc ▸ List.mem_cons_self _ _)
    have hrest : ':' ∉ rest := fun hr => h (List.mem_cons_of_mem _ hr)
    show splitColon (c :: (rest ++ ':' :: l2)) = (c :: rest) :: splitColon l2
    rw [splitColon, ih hrest]
    simp [hc]

theorem xorBytes_cancel (a b : List Nat) (h : a.length = b.length) :
    xorBytes (xorBytes a b) b = a := by
  induction a generalizing b with
  | nil => cases b <;> rfl
  | cons x xs ih =>
    cases b with
    | nil => simp at h
    | cons y ys =>
      have hcan : ∀ m n : Nat, Nat.xor (Nat.xor m n) n = m :=
        fun m n => Nat.xor_cancel_right n m
      have htail := ih ys (by simpa using h)
      simp only [xorBytes] at htail ⊢
      simp only [List.zipWith_cons_cons, hcan, htail]

theorem xorBytes_valid (a b : List Nat) (ha : ∀ x ∈ a, x < 256)
    (hb : ∀ x ∈ b, x < 256) : ∀ x ∈ xorBytes a b, x < 256 := by
  induction a generalizing b with
  | nil => simp [xorBytes]
  | cons x xs ih =>
    cases b with
    | nil => simp [xorBytes]
    | cons y ys =>
      intro z hz
      simp only [xorBytes, List.zipWith_cons_cons, List.mem_cons] at hz
      rcases hz with rfl | hz
      · have hx : x < 2 ^ 8 := ha x (by simp)
        have hy : y < 2 ^ 8 := hb y (by simp)
        exact (Nat.xor_lt_two_pow hx hy : Nat.xor x y < 256)
      · exact ih ys (fun w hw => ha w (by simp [hw])) (fun w hw => hb w (by simp [hw])) z hz

theorem xorBytes_length (a b : List Nat) :
    (xorBytes a b).length = min a.length b.length :=
  List.length_zipWith _ _ _

theorem chunkGo_nil (fuel : Nat) : chunkGo fuel [] = [] := by
  cases fuel <;> rfl

theorem flatten_chunkGo (fuel : Nat) (l : List Nat) (hf : l.length ≤ fuel) :
    List.flatten (chunkGo fuel l) = l := by
  induction fuel generalizing l with
  | zero =>
    have hl : l = [] := List.length_eq_zero.mp (by omega)
    subst hl
    rfl
  | succ f ih =>
    cases l with
    | nil => rfl
    | cons b rest =>
      simp only [chunkGo, List.flatten_cons]
      rw [ih _ (by
        simp only [List.length_drop, List.length_cons]
        simp only [List.length_cons] at hf
        omega)]
      exact List.take_append_drop 16 (b :: rest)

theorem chunkGo_length16 (fuel : Nat) (l : List Nat) (hf : l.length ≤ fuel)
    (hm : l.length % 16 = 0) : ∀ b ∈ chunkGo fuel l, b.length = 16 := by
  induction fuel generalizing l with
  | zero =>
    have hl : l = [] := List.length_eq_zero.mp (by omega)
    subst hl
    simp [chunkGo]
  | succ f ih =>
    cases l with
    | nil => simp [chunkGo]
    | cons x rest =>
      intro b hb
      have h16 : 16 ≤ (x :: rest).length := by
        simp only [List.length_cons] at hm ⊢
        omega
      simp only [chunkGo, List.mem_cons] at hb
      rcases hb with rfl | hb
      · simp only [List.length_take]
        omega
      · refine ih ((x :: rest).drop 16) ?_ ?_ b hb
        · simp only [List.length_drop]
          simp only [List.length_cons] at hf ⊢
          omega
        · simp only [List.length_drop]
          omega

theorem chunkGo_flatten_blocks (bs : List (List Nat))
    (h : ∀ b ∈ bs, b.length = 16) (fuel : Nat)
    (hf : (List.flatten bs).length ≤ fuel) :
    chunkGo fuel (List.flatten bs) = bs := by
  induction bs generalizing fuel with
  | nil => simp [chunkGo_nil]
  | cons b bs2 ih =>
    have hb : b.length = 16 := h b (by simp)
    have hlen : (List.flatten (b :: bs2)).length
        = 16 + (List.flatten bs2).length := by
      simp [List.flatten_cons, hb]
    cases fuel with
    | zero => omega
    | succ f =>
      cases b with
      | nil => simp at hb
      | cons x xs =>
        have he : List.flatten ((x :: xs) :: bs2) = x :: (xs ++ List.flatten bs2) := by
          rw [List.flatten_cons]
          rfl
        rw [he, chunkGo]
        have he2 : x :: (xs ++ List.flatten bs2) = (x :: xs) ++ List.flatten bs2 := rfl
        rw [he2, ← hb, List.take_left, List.drop_left]
        rw [hlen] at hf
        rw [ih (fun b2 hb2 => h b2 (by simp [hb2])) f (by omega)]

theorem pad16_length_mod (l : List Nat) : (pad16 l).length % 16 = 0 := by
  simp only [pad16, List.length_append, List.length_replicate]
  omega

theorem pad16_valid (l : List Nat) (h : ∀ b ∈ l, b < 256) :
    ∀ b ∈ pad16 l, b < 256 := by
  intro b hb
  simp only [pad16, List.mem_append] at hb
  rcases hb with hb | hb
  · exact h b hb
  · have := List.eq_of_mem_replicate hb
    omega

theorem unpad16_pad16 (l : List Nat) : unpad16 (pad16 l) = some l := by
  show unpad16 (l ++ List.replicate (16 - l.length % 16) (16 - l.length % 16)) = some l
  have hmod : l.length % 16 < 16 := Nat.mod_lt _ (by omega)
  generalize hgen : 16 - l.length % 16 = p
  have hp1 : 1 ≤ p := by omega
  have hp16 : p ≤ 16 := by omega
  have hrep : List.replicate p p = List.replicate (p - 1) p ++ [p] := by
    have h2 : (p - 1) + 1 = p := by omega
    calc List.replicate p p = List.replicate ((p - 1) + 1) p := by rw [h2]
    _ = List.replicate (p - 1) p ++ [p] := List.replicate_succ' _ _
  have hlast : (l ++ List.replicate p p).getLast? = some p := by
    rw [hrep, ← List.append_assoc, List.getLast?_concat]
  have hlen : (l ++ List.replicate p p).length = l.length + p := by
    simp
  unfold unpad16
  rw [hlast]
  dsimp only
  rw [hlen, Nat.add_sub_cancel, List.drop_left, List.take_left]
  rw [if_pos ?cond]
  case cond =>
    refine ⟨hp1, hp16, by omega, ?_⟩
    simp only [List.all_eq_true]
    intro x hx
    have := List.eq_of_mem_replicate hx
    simp [this]

theorem cbcEnc_blocks_length (E : List Nat → List Nat)
    (hElen : ∀ x, x.length = 16 → (E x).length = 16)
    (bs : List (List Nat)) (prev : List Nat)
    (hbs : ∀ b ∈ bs, b.length = 16) (hprev : prev.length = 16) :
    ∀ c ∈ cbcEnc E prev bs, c.length = 16 := by
  induction bs generalizing prev with
  | nil => simp [cbcEnc]
  | cons b bs2 ih =>
    intro c hc
    have hb : b.length = 16 := hbs b (by simp)
    have hx : (xorBytes b prev).length = 16 := by
      rw [xorBytes_length, hb, hprev]
      rfl
    have hE : (E (xorBytes b prev)).length = 16 := hElen _ hx
    simp only [cbcEnc, List.mem_cons] at hc
    rcases hc with rfl | hc
    · exact hE
    · exact ih _ (fun b2 hb2 => hbs b2 (by simp [hb2])) hE c hc

theorem cbcEnc_blocks_valid (E : List Nat → List Nat)
    (hEvalid : ∀ x, (∀ v ∈ x, v < 256) → ∀ v ∈ E x, v < 256)
    (bs : List (List Nat)) (prev : List Nat)
    (hbs : ∀ b ∈ bs, ∀ v ∈ b, v < 256) (hprev : ∀ v ∈ prev, v < 256) :
    ∀ c ∈ cbcEnc E prev bs, ∀ v ∈ c, v < 256 := by
  induction bs generalizing prev with
  | nil => simp [cbcEnc]
  | cons b bs2 ih =>
    intro c hc
    have hb : ∀ v ∈ b, v < 256 := hbs b (by simp)
    have hxv : ∀ v ∈ xorBytes b prev, v < 256 := xorBytes_valid b prev hb hprev
    have hEv : ∀ v ∈ E (xorBytes b prev), v < 256 := hEvalid _ hxv
    simp only [cbcEnc, List.mem_cons] at hc
    rcases hc with rfl | hc
    · exact hEv
    · exact ih _ (fun b2 hb2 => hbs b2 (by simp [hb2])) hEv c hc

theorem cbcDec_cbcEnc (E D : List Nat → List Nat) (hD : ∀ x, D (E x) = x)
    (hElen : ∀ x, x.length = 16 → (E x).length = 16)
    (bs : List (List Nat)) (prev : List Nat)
    (hbs : ∀ b ∈ bs, b.length = 16) (hprev : prev.length = 16) :
    cbcDec D prev (cbcEnc E prev bs) = bs := by
  induction bs generalizing prev with
  | nil => rfl
  | cons b bs2 ih =>
    have hb : b.length = 16 := hbs b (by simp)
    have hx : (xorBytes b prev).length = 16 := by
      rw [xorBytes_length, hb, hprev]
      rfl
    simp only [cbcEnc, cbcDec, hD]
    rw [xorBytes_cancel b prev (by omega),
      ih _ (fun b2 hb2 => hbs b2 (by simp [hb2])) (hElen _ hx)]

theorem flatten_valid (bs : List (List Nat)) (h : ∀ b ∈ bs, ∀ v ∈ b, v < 256) :
    ∀ v ∈ List.flatten bs, v < 256 := by
  intro v hv
  rw [List.mem_flatten] at hv
  obtain ⟨b, hb, hvb⟩ := hv
  exact h b hb v hvb

theorem chunkGo_mem (fuel : Nat) (l : List Nat) :
    ∀ b ∈ chunkGo fuel l, ∀ v ∈ b, v ∈ l := by
  induction fuel generalizing l with
  | zero => intro b hb; simp [chunkGo] at hb
  | succ f ih =>
    cases l with
    | nil => intro b hb; simp [chunkGo] at hb
    | cons x rest =>
      intro b hb v hv
      simp only [chunkGo, List.mem_cons] at hb
      rcases hb with rfl | hb
      · exact List.mem_of_mem_take hv
      · exact List.mem_of_mem_drop (ih _ b hb v hv)

/-- C9: for every plaintext byte string, every 16-byte IV and every keyed
block transformation pair (E, D) in which D inverts E on 16-byte blocks
(the abstraction of the AES-256 permutation under the fixed environment
key), decrypt inverts encrypt; encrypt produces exactly
hex(iv) ++ ":" ++ hex(ciphertext) for the per-call IV; and decrypt rejects
every input that does not split into exactly two ":"-separated parts with
the Invalid-encrypted-data-format error. -/
theorem encrypt_decrypt_roundtrip (E D : List Nat → List Nat)
    (iv text : List Nat) (s : String)
    (hD : ∀ x, D (E x) = x)
    (hElen : ∀ x, x.length = 16 → (E x).length = 16)
    (hEvalid : ∀ x, (∀ v ∈ x, v < 256) → ∀ v ∈ E x, v < 256)
    (hivlen : iv.length = 16) (hivvalid : ∀ v ∈ iv, v < 256)
    (htext : ∀ v ∈ text, v < 256)
    (hbad : (splitColon s.toList).length ≠ 2) :
    decrypt D (encrypt E iv text) = Except.ok text ∧
    encrypt E iv text
      = String.mk (bytesToHexL iv) ++ ":" ++ String.mk (bytesToHexL (cipherBytes E iv text)) ∧
    decrypt D s = Except.error "Invalid encrypted data format" := by
  refine ⟨?_, rfl, ?_⟩
  · have hblocks16 : ∀ b ∈ chunk16 (pad16 text), b.length = 16 :=
      chunkGo_length16 _ _ le_rfl (pad16_length_mod text)
    have hblocksvalid : ∀ b ∈ chunk16 (pad16 text), ∀ v ∈ b, v < 256 :=
      fun b hb v hv => pad16_valid text htext v (chunkGo_mem _ _ b hb v hv)
    have hctBlocks16 : ∀ c ∈ cbcEnc E iv (chunk16 (pad16 text)), c.length = 16 :=
      cbcEnc_blocks_length E hElen _ iv hblocks16 hivlen
    have hctvalid : ∀ v ∈ cipherBytes E iv text, v < 256 :=
      flatten_valid _ (cbcEnc_blocks_valid E hEvalid _ iv hblocksvalid hivvalid)
    have htl : (encrypt E iv text).toList
        = bytesToHexL iv ++ ':' :: bytesToHexL (cipherBytes E iv text) := by
      show (bytesToHexL iv ++ [':']) ++ bytesToHexL (cipherBytes E iv text)
          = bytesToHexL iv ++ ':' :: bytesToHexL (cipherBytes E iv text)
      simp
    have hsplit : splitColon ((encrypt E iv text).toList)
        = [bytesToHexL iv, bytesToHexL (cipherBytes E iv text)] := by
      rw [htl, splitColon_append _ _ (colon_not_mem_bytesToHexL iv),
        splitColon_no_colon _ (colon_not_mem_bytesToHexL _)]
    have hchunk : chunk16 (cipherBytes E iv text) = cbcEnc E iv (chunk16 (pad16 text)) := by
      rw [cipherBytes, chunk16]
      exact chunkGo_flatten_blocks _ hctBlocks16 _ le_rfl
    unfold decrypt
    rw [hsplit]
    dsimp only
    rw [hexToBytesL_bytesToHexL iv hivvalid, hexToBytesL_bytesToHexL _ hctvalid]
    dsimp only
    rw [hchunk, cbcDec_cbcEnc E D hD hElen _ iv hblocks16 hivlen]
    rw [show List.flatten (chunk16 (pad16 text)) = pad16 text from
      flatten_chunkGo _ _ le_rfl]
    rw [unpad16_pad16]
  · unfold decrypt
    cases hsp : splitColon s.toList with
    | nil => rfl
    | cons a l1 =>
      cases l1 with
      | nil => rfl
      | cons b l2 =>
        cases l2 with
        | nil =>
          rw [hsp] at hbad
          simp at hbad
        | cons c l3 => rfl

/-- C9 witness: with the identity block transformation, a 16-byte zero IV
and the plaintext bytes of "hi", decrypt recovers the plaintext from the
output of encrypt, and a colon-free input is rejected with the format
error. -/
theorem encrypt_decrypt_roundtrip_witness :
    decrypt (fun x => x) (encrypt (fun x => x) (List.replicate 16 0) [104, 105])
      = Except.ok [104, 105] ∧
    decrypt (fun x => x) "deadbeef" = Except.error "Invalid encrypted data format" :=
  ⟨(encrypt_decrypt_roundtrip (fun x => x) (fun x => x) (List.replicate 16 0)
      [104, 105] "deadbeef" (fun _ => rfl) (fun _ h => h) (fun _ h => h)
      (by decide) (by decide) (by decide) (by decide)).1,
   (encrypt_decrypt_roundtrip (fun x => x) (fun x => x) (List.replicate 16 0)
      [104, 105] "deadbeef" (fun _ => rfl) (fun _ h => h) (fun _ h => h)
      (by decide) (by decide) (by decide) (by decide)).2.2⟩
